import Mathlib

/-!
Verification of the RAVEN excerpt: `framework/utils/xmlUtils.py` (XML tree
construction, sanitization and pretty-printing helpers, Python 2) and
`framework/OutStreams/OutStreamEntity.py` (abstract output-stream base class).

Strings are modelled as lists of Unicode code units (`List Nat`), since the
Python 2 code manipulates `unicode` strings that may contain lone surrogate
code units (which Lean's `Char` cannot represent).  Python values that may or
may not be strings are modelled by `PyVal`.  A Python function that can raise
an exception is modelled with an `Option` result (`none` = exception).
-/

set_option linter.unusedVariables false

/-- Model of a Python value as far as these utilities inspect one: a `unicode`
string (list of code units), a function object (`xml.etree.ElementTree.Comment`
or `ProcessingInstruction`, used as the tag of comment nodes), or any other
non-string object (indexed opaquely by a natural number). -/
inductive PyVal where
  | str (s : List Nat)
  | func
  | other (n : Nat)
  deriving DecidableEq

instance : Inhabited PyVal := ⟨PyVal.str []⟩

mutual
/-- Model of `xml.etree.ElementTree.Element`: a tag (any Python value; a
function object for comment nodes), an attribute mapping (association list,
in document order), optional `text` and `tail` strings, and the ordered
children. -/
inductive Element where
  | mk (tag : PyVal) (attrib : List (PyVal × PyVal)) (text : Option (List Nat))
       (tail : Option (List Nat)) (children : ElementList)
  deriving DecidableEq
/-- The ordered sequence of children of an `Element` (a specialized list, kept
mutual with `Element` so that structural recursion and `decide` work). -/
inductive ElementList where
  | nil
  | cons (hd : Element) (tl : ElementList)
  deriving DecidableEq
end

def Element.tag : Element → PyVal
  | .mk t _ _ _ _ => t

def Element.attrib : Element → List (PyVal × PyVal)
  | .mk _ a _ _ _ => a

def Element.text : Element → Option (List Nat)
  | .mk _ _ x _ _ => x

def Element.tail : Element → Option (List Nat)
  | .mk _ _ _ x _ => x

def Element.children : Element → ElementList
  | .mk _ _ _ _ c => c

instance : Inhabited Element := ⟨.mk (PyVal.str []) [] none none .nil⟩

def ElementList.toList : ElementList → List Element
  | .nil => []
  | .cons c cs => c :: ElementList.toList cs

def ElementList.isNil : ElementList → Bool
  | .nil => true
  | .cons _ _ => false

/-- Replace the tail string of an element (`e.tail = f(e.tail)`; every call
site applies this after `prettifyNode` has made the tail a string, so the
`none` case cannot occur there). -/
def Element.mapTail (f : List Nat → List Nat) : Element → Element
  | .mk tag attrib text tail children => .mk tag attrib text (some (f (tail.getD []))) children

/-- Apply `f` to the last element of the list (the `child` variable left over
from `for child in node` in `prettifyNode`). -/
def ElementList.mapLast (f : Element → Element) : ElementList → ElementList
  | .nil => .nil
  | .cons c .nil => .cons (f c) .nil
  | .cons c (.cons d cs) => .cons c (ElementList.mapLast f (.cons d cs))

/-- Model of `isComment` (xmlUtils.py lines 17-25): a node is a comment when
its tag is a function object (`type(node.tag).__name__ == 'function'`). -/
def isCommentTag : PyVal → Bool
  | PyVal.func => true
  | _ => false

def isComment (node : Element) : Bool := isCommentTag node.tag

/-- Characters stripped by Python 2 `unicode.strip()` that occur in this code
base: the ASCII whitespace characters. -/
def isPySpace (c : Nat) : Bool :=
  c == 32 || c == 9 || c == 10 || c == 13 || c == 11 || c == 12

/-- Model of Python `s.strip()`: remove leading and trailing whitespace. -/
def pystrip (s : List Nat) : List Nat :=
  ((s.dropWhile isPySpace).reverse.dropWhile isPySpace).reverse

/-- Model of `os.linesep` on a POSIX system: the single character `\n`. -/
def linesep : List Nat := [10]

/-- Model of `s.replace(os.linesep + os.linesep, os.linesep)`: replace each
leftmost non-overlapping occurrence of two consecutive newlines by one. -/
def replace2ls : List Nat → List Nat
  | [] => []
  | [a] => [a]
  | a :: b :: rest =>
    if a == 10 && b == 10 then 10 :: replace2ls rest
    else a :: replace2ls (b :: rest)

mutual
/-- Model of `prettifyNode` (xmlUtils.py lines 34-58), the in-place tree
reformatter of `prettify`, as a pure function from the old node to the new
node.  Steps, in source order: `None` text becomes the empty string; when the
node has children its text is stripped and given a newline plus child
indentation, the children are recursively prettified and the last child's tail
loses its final two spaces; the tail (empty if `None`, stripped otherwise)
receives one newline — two at the first level for non-comment nodes — plus this
level's indentation; finally, at the top level, doubled newlines in the last
child's tail are collapsed. -/
def prettifyNode (node : Element) (tabs : Nat) : Element :=
  match node with
  | .mk tag attrib text tail children =>
    let space := List.replicate (2 * tabs) 32
    let text0 := text.getD []
    let hasChildren := !children.isNil
    let text1 := if hasChildren then pystrip text0 ++ linesep ++ space ++ [32, 32] else text0
    let children1 :=
      if hasChildren then
        (prettifyChildren children (tabs + 1)).mapLast
          (Element.mapTail (fun t => t.take (t.length - 2)))
      else children
    let tail1 := match tail with | none => [] | some t => pystrip t
    let lines := if tabs == 1 && !isCommentTag tag then linesep ++ linesep else linesep
    let tail2 := tail1 ++ lines ++ space
    let children2 :=
      if tabs == 0 && hasChildren then children1.mapLast (Element.mapTail replace2ls)
      else children1
    .mk tag attrib (some text1) (some tail2) children2

/-- The `for child in node: prettifyNode(child, tabs+1)` loop. -/
def prettifyChildren : ElementList → Nat → ElementList
  | .nil, _ => .nil
  | .cons c cs, tabs => .cons (prettifyNode c tabs) (prettifyChildren cs tabs)
end

/-- Model of `_escape_cdata` from `xml.etree.ElementTree` (CPython 2.7):
escape `&`, `<`, `>` in text content. -/
def escapeCdata (s : List Nat) : List Nat :=
  s.flatMap fun c =>
    if c == 38 then [38, 97, 109, 112, 59]
    else if c == 60 then [38, 108, 116, 59]
    else if c == 62 then [38, 103, 116, 59]
    else [c]

/-- Model of `_escape_attrib` from `xml.etree.ElementTree` (CPython 2.7):
escape `&`, `<`, `>`, `"` and the newline in attribute values. -/
def escapeAttrib (s : List Nat) : List Nat :=
  s.flatMap fun c =>
    if c == 38 then [38, 97, 109, 112, 59]
    else if c == 60 then [38, 108, 116, 59]
    else if c == 62 then [38, 103, 116, 59]
    else if c == 34 then [38, 113, 117, 111, 116, 59]
    else if c == 10 then [38, 35, 49, 48, 59]
    else [c]

/-- String form of a tag or attribute key for serialization (the claims only
exercise string tags and keys; CPython raises `TypeError` on others). -/
def PyVal.strD : PyVal → List Nat
  | PyVal.str s => s
  | _ => []

mutual
/-- Model of `xml.etree.ElementTree.tostring` / `_serialize_xml` (CPython
2.7) for the cases this excerpt exercises: comment nodes serialize as
`<!--text-->`; ordinary nodes serialize the tag with its attributes (document
order here; CPython 2.7 emits them sorted by key — no claim depends on the
order), a body when the node has non-empty text or children, and a self-closing
form otherwise; the node's tail follows in both cases.  Text, tails and
attribute values are escaped. -/
def serialize : Element → List Nat
  | .mk tag attrib text tail children =>
    let tailStr := match tail with | none => [] | some t => escapeCdata t
    match tag with
    | PyVal.func => (60 :: 33 :: 45 :: 45 :: (text.getD [])) ++ [45, 45, 62] ++ tailStr
    | t =>
      let s := t.strD
      let attrs := attrib.flatMap fun kv =>
        32 :: (kv.1.strD ++ [61, 34] ++ escapeAttrib kv.2.strD ++ [34])
      let hasText := match text with | some x => !x.isEmpty | none => false
      let textStr := match text with | some x => if x.isEmpty then [] else escapeCdata x | none => []
      (if hasText || !children.isNil then
        (60 :: s) ++ attrs ++ [62] ++ textStr ++ serializeList children ++ (60 :: 47 :: s) ++ [62]
      else (60 :: s) ++ attrs ++ [32, 47, 62]) ++ tailStr

def serializeList : ElementList → List Nat
  | .nil => []
  | .cons c cs => serialize c ++ serializeList cs
end

/-- Model of `prettify` (xmlUtils.py lines 27-65): reformat the tree in place
with `prettifyNode` starting at the root with `tabs = 0`, then return the
serialized result (an `ElementTree` argument and its root element are treated
alike, so the tree is modelled by its root element). -/
def prettify (tree : Element) : List Nat :=
  serialize (prettifyNode tree 0)

/-- Characters of the legal tag character class `[a-zA-Z0-9-_.]` of
`fixXmlTag`: letters, digits, hyphen, underscore, period. -/
def legalTagChar (c : Nat) : Bool :=
  (97 ≤ c && c ≤ 122) || (65 ≤ c && c ≤ 90) || (48 ≤ c && c ≤ 57) ||
    c == 45 || c == 95 || c == 46

def isLetterChar (c : Nat) : Bool :=
  (97 ≤ c && c ≤ 122) || (65 ≤ c && c ≤ 90)

/-- Model of `bool(re.match('(^[a-zA-Z0-9-_.]+$)', msg))` (xmlUtils.py line
172).  Python's `$` matches at the end of the string or just before a single
trailing newline, so the match succeeds exactly when the string is non-empty
and all legal, or all legal followed by one final newline. -/
def matchAllTagChars (s : List Nat) : Bool :=
  (!s.isEmpty && s.all legalTagChar) ||
    (s.getLast? == some 10 && !s.dropLast.isEmpty && s.dropLast.all legalTagChar)

/-- Model of `bool(re.match(u'([xX][mM][lL])', msg[:3]))` (line 177): the
first three characters spell `xml` in any letter case (false when the string
is shorter than three characters). -/
def startsXml : List Nat → Bool
  | a :: b :: c :: _ =>
    (a == 120 || a == 88) && (b == 109 || b == 77) && (c == 108 || c == 76)
  | _ => false

/-- Model of `fixXmlTag` (xmlUtils.py lines 158-180).  Non-strings pass
through.  For a string: unless the whole string matches the legal-tag regex,
every character outside `[a-zA-Z0-9-_.]` is replaced by a period
(`re.sub('([^a-zA-Z0-9-_.])', '.', msg)`); then `msg[0]` is inspected — an
`IndexError` (modelled by `none`) on the empty string — and an underscore is
prepended when the first character is not a letter or underscore, or the name
starts with `xml` in any case. -/
def fixXmlTag : PyVal → Option PyVal
  | PyVal.str msg =>
    let msg1 :=
      if !matchAllTagChars msg then msg.map (fun c => if legalTagChar c then c else 46)
      else msg
    match msg1 with
    | [] => none
    | c0 :: rest =>
      if !(isLetterChar c0 || c0 == 95) || startsXml (c0 :: rest) then
        some (PyVal.str (95 :: c0 :: rest))
      else some (PyVal.str (c0 :: rest))
  | v => some v

/-- Character class `[\u0000-\u0008\u000b-\u000c\u000e-\u001f￾-￿]`
of the `RE_XML_ILLEGAL` pattern of `fixXmlText`. -/
def inA (c : Nat) : Bool :=
  c ≤ 8 || c == 11 || c == 12 || (14 ≤ c && c ≤ 31) || c == 0xFFFE || c == 0xFFFF

/-- High-surrogate class `[\ud800-\udbff]` of `RE_XML_ILLEGAL`. -/
def inH (c : Nat) : Bool := 0xD800 ≤ c && c ≤ 0xDBFF

/-- Low-surrogate class `[\udc00-\udfff]` of `RE_XML_ILLEGAL`. -/
def inL (c : Nat) : Bool := 0xDC00 ≤ c && c ≤ 0xDFFF

/-- Model of `re.sub(RE_XML_ILLEGAL, "?", msg)` (xmlUtils.py line 155):
left-to-right, non-overlapping search; at each position the alternatives are
tried in order — (1) a single illegal character, (2) a high surrogate followed
by a non-low-surrogate (two characters), (3) a non-high-surrogate followed by
a low surrogate (two characters), (4) a high surrogate at the end of the
string, (5) a low surrogate at the start of the string — and each match is
replaced by a single `?`.  `atStart` records whether the scan position is the
start of the string (for the `^` anchor of alternative 5). -/
def xmlIllegalSub : List Nat → Bool → List Nat
  | [], _ => []
  | [a], atStart =>
    if inA a then [63]
    else if inH a then [63]
    else if atStart && inL a then [63]
    else [a]
  | a :: b :: rest, atStart =>
    if inA a then 63 :: xmlIllegalSub (b :: rest) false
    else if inH a && !inL b then 63 :: xmlIllegalSub rest false
    else if !inH a && inL b then 63 :: xmlIllegalSub rest false
    else if atStart && inL a then 63 :: xmlIllegalSub (b :: rest) false
    else a :: xmlIllegalSub (b :: rest) false

/-- Model of `fixXmlText` (xmlUtils.py lines 139-156): non-strings pass back
through unchanged; strings get the `RE_XML_ILLEGAL` substitution. -/
def fixXmlText : PyVal → PyVal
  | PyVal.str msg => PyVal.str (xmlIllegalSub msg true)
  | v => v

/-- Model of `xml.etree.ElementTree.Element.find` for the plain tag names this
excerpt passes to it: the first direct child whose tag equals the given
string. -/
def findChild (root : Element) (tag : List Nat) : Option Element :=
  root.children.toList.find? (fun c => c.tag == PyVal.str tag)

/-- Model of `'|'.join(...)` over code-unit lists. -/
def joinPipe (segs : List (List Nat)) : List Nat := [124].intercalate segs

theorem intercalate_concat (x : Nat) :
    ∀ (l : List (List Nat)), l ≠ [] → ∀ (a : List Nat),
      [x].intercalate (l ++ [a]) = [x].intercalate l ++ x :: a
  | [], h, _ => absurd rfl h
  | [b], _, a => by
    simp [List.intercalate, List.intersperse_cons_cons, List.intersperse_singleton]
  | b :: c :: l, _, a => by
    have ih := intercalate_concat x (c :: l) (by simp) a
    simp only [List.intercalate, List.cons_append, List.intersperse_cons_cons,
      List.flatten_cons] at ih ⊢
    simp [ih]

/-- Rejoining all but the last of at least two segments gives a strictly
shorter string than the original path: the recursion of `findPath`
terminates. -/
theorem joinPipe_dropLast_length_lt (path : List Nat)
    (h : 1 < (path.splitOn 124).length) :
    (joinPipe ((path.splitOn 124).dropLast)).length < path.length := by
  have hne : path.splitOn 124 ≠ [] := by
    intro he; rw [he] at h; simp at h
  have hdl : (path.splitOn 124).dropLast ≠ [] := by
    intro he
    have hl := (path.splitOn 124).length_dropLast
    rw [he] at hl
    simp at hl
    omega
  have hsplit : (path.splitOn 124).dropLast ++ [(path.splitOn 124).getLast hne] =
      path.splitOn 124 := List.dropLast_append_getLast hne
  have hconc : [124].intercalate (path.splitOn 124) =
      [124].intercalate (path.splitOn 124).dropLast ++
        124 :: (path.splitOn 124).getLast hne := by
    conv_lhs => rw [← hsplit]
    exact intercalate_concat 124 _ hdl _
  have hpath : [124].intercalate (path.splitOn 124) = path :=
    List.intercalate_splitOn path 124
  have hlen := congrArg List.length hconc
  rw [hpath] at hlen
  simp only [List.length_append, List.length_cons] at hlen
  rw [joinPipe]
  omega

/-- Model of `findPath` (xmlUtils.py lines 111-126): split the path on `|`;
with more than one segment, recursively resolve all but the last segment
(re-joined with `|`) and look the last segment up among the children of that
result, propagating the `None` sentinel; with a single segment, look it up
among the children of `root`. -/
def findPath (root : Element) (path : List Nat) : Option Element :=
  let segs := path.splitOn 124
  if h : 1 < segs.length then
    match findPath root (joinPipe segs.dropLast) with
    | some oneUp => findChild oneUp segs.getLast!
    | none => none
  else findChild root segs.getLast!
termination_by path.length
decreasing_by
  exact joinPipe_dropLast_length_lt path h

/-- Clean-up of the `attrib` argument of `newNode` (xmlUtils.py lines 91-94):
each key is sanitized with `fixXmlTag` (which can raise) and each value with
`fixXmlText`; `str(value)` is the identity on the string values this excerpt
passes. -/
def cleanAttribPairs : List (PyVal × PyVal) → Option (List (PyVal × PyVal))
  | [] => some []
  | (k, v) :: rest => do
    let k' ← fixXmlTag k
    let rest' ← cleanAttribPairs rest
    some ((k', fixXmlText v) :: rest')

/-- Model of `newNode` (xmlUtils.py lines 81-97): sanitize the tag with
`fixXmlTag` and the attribute pairs with `fixXmlTag`/`fixXmlText`, then build
an element with the sanitized text (`str(text)` is the identity on the string
arguments used in this excerpt; the default is the empty string) and no
children. -/
def newNode (tag : PyVal) (text : List Nat := []) (attrib : List (PyVal × PyVal) := []) :
    Option Element := do
  let tagF ← fixXmlTag tag
  let cleanAttrib ← cleanAttribPairs attrib
  some (.mk tagF cleanAttrib (some (xmlIllegalSub text true)) none .nil)

/-- Model of `newTree` (xmlUtils.py lines 99-109): sanitize the name with
`fixXmlTag`, build the root with `newNode` (which sanitizes the name a second
time), then overwrite the root's attribute mapping with a verbatim copy of
`attrib` (`tree.getroot().attrib = dict(attrib)`).  The resulting tree is
modelled by its root element. -/
def newTree (name : PyVal) (attrib : List (PyVal × PyVal) := []) : Option Element := do
  let nameF ← fixXmlTag name
  match (← newNode nameF) with
  | .mk tagF cleanAttrib text tail children => some (.mk tagF attrib text tail children)

/-- Model of the `OutStreamEntity` instance state (OutStreamEntity.py):
`printTag` and `type` are set in `__init__`; the fields inherited from
`BaseEntity` are abstracted into one opaque component. -/
structure OutStreamEntity where
  printTag : List Nat
  type : List Nat
  baseFields : Nat
  deriving DecidableEq

/-- Model of `OutStreamEntity.initialize` (lines 58-64): the body is `pass`,
so the state is unchanged and `None` is returned whatever `stepEntities` is. -/
def OutStreamEntity.initStep (self : OutStreamEntity) (stepEntities : List (List Nat × Nat)) :
    OutStreamEntity × Option PyVal := (self, none)

/-- Model of `OutStreamEntity.addOutput` (lines 66-72): the body is `pass`. -/
def OutStreamEntity.addOutput (self : OutStreamEntity) : OutStreamEntity × Option PyVal :=
  (self, none)

/-- Model of `OutStreamEntity.getInitParams` (lines 76-88): returns a freshly
created empty dictionary and leaves the state unchanged. -/
def OutStreamEntity.getInitParams (self : OutStreamEntity) :
    OutStreamEntity × List (List Nat × PyVal) := (self, [])

/-- Result predicate for `fixXmlTag`: the first character is a letter or an
underscore. -/
def tagHeadOk : List Nat → Bool
  | [] => false
  | c :: _ => isLetterChar c || c == 95

/-- Result predicate for `fixXmlTag`: every character is in the legal tag
charset, except that a single trailing newline may remain (the `$` of the
legal-tag regex also matches just before one trailing newline). -/
def tagCharsOk (s : List Nat) : Bool :=
  s.all legalTagChar || (s.getLast? == some 10 && s.dropLast.all legalTagChar)

/-- Specification-side path resolution, following the spec's words: resolve
each segment in turn as the first matching direct child of the node matched
so far, and return the not-found sentinel as soon as any segment fails. -/
def resolveSegs : Element → List (List Nat) → Option Element
  | node, [] => some node
  | node, seg :: rest =>
    match findChild node seg with
    | some child => resolveSegs child rest
    | none => none

mutual
/-- The tag, attribute mapping and child structure of an element, with the
`text` and `tail` fields erased: two elements have the same `shape` exactly
when they differ at most in `text`/`tail` fields of their nodes. -/
def shape : Element → Element
  | .mk tag attrib _ _ children => .mk tag attrib none none (shapeList children)

def shapeList : ElementList → ElementList
  | .nil => .nil
  | .cons c cs => .cons (shape c) (shapeList cs)
end

mutual
/-- Indentation discipline of the prettified tree: every node with children at
depth `d` has text ending in a newline followed by `2*(d+1)` spaces — the
two-spaces-per-level indentation of its children. -/
def indentOK : Element → Nat → Bool
  | .mk _ _ text _ children, d =>
    (children.isNil || (linesep ++ List.replicate (2 * (d + 1)) 32).isSuffixOf (text.getD []))
      && indentOKList children (d + 1)

def indentOKList : ElementList → Nat → Bool
  | .nil, _ => true
  | .cons c cs, d => indentOK c d && indentOKList cs d
end

/-- The separator appended to a first-level node's tail by `prettifyNode`:
a blank line (two newlines) for ordinary nodes, a single newline for comment
nodes. -/
def firstLevelSep (c : Element) : List Nat :=
  if isComment c then linesep else linesep ++ linesep

/-- Whether a string contains two consecutive newlines (a blank line). -/
def hasBlankLine : List Nat → Bool
  | [] => false
  | [_] => false
  | a :: b :: rest => (a == 10 && b == 10) || hasBlankLine (b :: rest)

/-- Whether a blank line follows this node, i.e. its tail contains two
consecutive newlines. -/
def blankAfterTail (e : Element) : Bool :=
  hasBlankLine (e.tail.getD [])

/-- Formalization of the claim "a blank line separates consecutive first-level
sibling blocks except before comment nodes": between consecutive first-level
children, a blank line occurs exactly when the following sibling is not a
comment. -/
def claimC6blankSep (root : Element) : Bool :=
  let cs := root.children.toList
  (List.range cs.length).all fun i =>
    if i + 1 < cs.length then blankAfterTail cs[i]! == !isComment cs[i + 1]! else true

/-- Concrete ordinary first-level node for the `prettify` counterexample. -/
def exNodeA : Element := .mk (PyVal.str [97]) [] none none .nil

/-- Concrete comment node for the `prettify` counterexample. -/
def exComment : Element := .mk PyVal.func [] (some [99]) none .nil

/-- Concrete root: an ordinary first-level node followed by a comment. -/
def exRoot : Element :=
  .mk (PyVal.str [114]) [] none none (.cons exNodeA (.cons exComment .nil))

/-! ## Properties of `fixXmlText` -/

theorem inA_63 : inA 63 = false := by decide

/-- Every code unit the substitution emits is either a kept character that
alternative 1 did not match, or the replacement `?`: no character of the
illegal-control class `inA` survives in the output. -/
theorem xmlIllegalSub_all_not_inA :
    ∀ (s : List Nat) (b : Bool), ((xmlIllegalSub s b).all fun c => !inA c) = true := by
  intro s b
  induction s, b using xmlIllegalSub.induct with
  | case1 b => rfl
  | case2 a b h => simp [xmlIllegalSub, h, inA_63]
  | case3 a b h h2 => simp [xmlIllegalSub, h, h2, inA_63]
  | case4 a b h h2 h3 => simp [xmlIllegalSub, h, h2, h3, inA_63]
  | case5 a b h h2 h3 => simp [xmlIllegalSub, h, h2, h3, inA_63]
  | case6 a c rest b h ih => simp [xmlIllegalSub, h, ih, inA_63]
  | case7 a c rest b h h2 ih => simp [xmlIllegalSub, h, h2, ih, inA_63]
  | case8 a c rest b h h2 h3 ih => simp [xmlIllegalSub, h, h2, h3, ih, inA_63]
  | case9 a c rest b h h2 h3 h4 ih => simp [xmlIllegalSub, h, h2, h3, h4, ih, inA_63]
  | case10 a c rest b h h2 h3 h4 ih =>
    simp [xmlIllegalSub, h, h2, h3, h4, ih, inA_63]

/-- C5 (amended): `fixXmlText` applies the `RE_XML_ILLEGAL` substitution to
string inputs — each leftmost non-overlapping match (a single illegal control
character or `U+FFFE`/`U+FFFF`, a surrogate-anomaly pair, or a
boundary-anchored lone surrogate) becomes one `?`, so no character of the
illegal-control class remains in the output — and returns every non-string
input unchanged.  (An unpaired surrogate can survive when an earlier match
consumed its neighbour, so not every unpaired surrogate is replaced.) -/
theorem fixXmlText_substitution_spec :
    ∀ (s : List Nat) (n : Nat),
      fixXmlText (PyVal.str s) = PyVal.str (xmlIllegalSub s true) ∧
      ((xmlIllegalSub s true).all fun c => !inA c) = true ∧
      fixXmlText PyVal.func = PyVal.func ∧
      fixXmlText (PyVal.other n) = PyVal.other n :=
  fun s n => ⟨rfl, xmlIllegalSub_all_not_inA s true, rfl, rfl⟩

/-- C5 counterexample: on the string `"a\udc00\udc00"` the first match
consumes `a\udc00` (alternative 3), after which the final lone low surrogate
`\udc00` matches no alternative and survives: the output `"?\udc00"` still
contains an unpaired surrogate-like code point, so not every illegal
occurrence is replaced by `?`. -/
theorem fixXmlText_leaves_unpaired_surrogate :
    fixXmlText (PyVal.str [97, 56320, 56320]) = PyVal.str [63, 56320] ∧
      inL 56320 = true ∧ inH 63 = false := by decide

/-- C3 (amended): `fixXmlTag` returns normally on every non-string input and
on every non-empty string input (`fixXmlText` is total by construction and
never raises). -/
theorem fixXmlTag_returns_on_nonempty :
    ∀ (v : PyVal), v ≠ PyVal.str [] → (fixXmlTag v).isSome = true := by
  intro v hv
  cases v with
  | func => rfl
  | other n => rfl
  | str msg =>
    have hm : msg ≠ [] := by
      intro he
      exact hv (by rw [he])
    simp only [fixXmlTag]
    split
    next heq =>
      exfalso
      by_cases hb : (!matchAllTagChars msg) = true
      · rw [if_pos hb] at heq
        exact hm (List.map_eq_nil_iff.mp heq)
      · rw [if_neg hb] at heq
        exact hm heq
    next c0 rest heq =>
      split <;> rfl

/-- C3 counterexample: on the empty string the legal-tag regex does not match,
the substitution leaves the string empty, and the subscript `msg[0]` raises an
`IndexError` (modelled by `none`): `fixXmlTag('')` does not return
normally. -/
theorem fixXmlTag_empty_raises : fixXmlTag (PyVal.str []) = none := rfl

/-- C3 witness: a concrete non-empty string on which `fixXmlTag` returns. -/
theorem fixXmlTag_returns_on_nonempty_witness :
    (fixXmlTag (PyVal.str [97])).isSome = true :=
  fixXmlTag_returns_on_nonempty (PyVal.str [97]) (by decide)

/-- C9: the base-class bodies of `initialize` and `addOutput` are `pass`, so
they return `None` and leave every field of the instance unchanged, and
`getInitParams` returns the empty mapping, also leaving the instance
unchanged. -/
theorem outStreamEntity_base_is_noop :
    ∀ (self : OutStreamEntity) (stepEntities : List (List Nat × Nat)),
      self.initStep stepEntities = (self, none) ∧
      self.addOutput = (self, none) ∧
      self.getInitParams = (self, []) :=
  fun self se => ⟨rfl, rfl, rfl⟩

/-! ## Properties of `fixXmlTag` -/

theorem startsXml_cons95 : ∀ (l : List Nat), startsXml (95 :: l) = false
  | [] => rfl
  | [_] => rfl
  | _ :: _ :: _ => rfl

theorem tagCharsOk_cons (c : Nat) (hc : legalTagChar c = true) :
    ∀ (s : List Nat), s ≠ [] → tagCharsOk s = true → tagCharsOk (c :: s) = true := by
  intro s hs h
  cases s with
  | nil => exact absurd rfl hs
  | cons d s' =>
    simp only [tagCharsOk, Bool.or_eq_true, Bool.and_eq_true, List.all_cons] at h ⊢
    rcases h with h | ⟨h1, h2⟩
    · exact Or.inl ⟨hc, h⟩
    · refine Or.inr ⟨?_, ?_⟩
      · rw [List.getLast?_cons_cons]
        exact h1
      · rw [List.dropLast_cons₂, List.all_cons]
        simp [hc, h2]

/-- Main analysis of `fixXmlTag` on a non-empty string: the call returns a
non-empty string that starts with a letter or underscore, does not start with
`xml` in any case, and whose characters are all legal apart from a possible
single trailing newline. -/
theorem fixXmlTag_str_spec (msg : List Nat) (hm : msg ≠ []) :
    ∃ t, fixXmlTag (PyVal.str msg) = some (PyVal.str t) ∧ t ≠ [] ∧
      tagHeadOk t = true ∧ startsXml t = false ∧ tagCharsOk t = true := by
  have h1 : (if !matchAllTagChars msg then msg.map (fun c => if legalTagChar c then c else 46)
      else msg) ≠ [] := by
    split
    · simpa using hm
    · exact hm
  have h2 : tagCharsOk (if !matchAllTagChars msg then
      msg.map (fun c => if legalTagChar c then c else 46) else msg) = true := by
    split
    next hb =>
      simp only [tagCharsOk, Bool.or_eq_true]
      refine Or.inl (List.all_eq_true.mpr ?_)
      intro x hx
      rcases List.mem_map.mp hx with ⟨c, hcmem, rfl⟩
      by_cases hl : legalTagChar c = true
      · rw [if_pos hl]
        exact hl
      · rw [if_neg hl]
        decide
    next hb =>
      have hb' : matchAllTagChars msg = true := by simpa using hb
      simp only [matchAllTagChars, Bool.or_eq_true, Bool.and_eq_true] at hb'
      simp only [tagCharsOk, Bool.or_eq_true, Bool.and_eq_true]
      rcases hb' with ⟨_, h⟩ | ⟨⟨hl, _⟩, hdl⟩
      · exact Or.inl h
      · exact Or.inr ⟨hl, hdl⟩
  cases hms : (if !matchAllTagChars msg then
      msg.map (fun c => if legalTagChar c then c else 46) else msg) with
  | nil => exact absurd hms h1
  | cons c0 rest =>
    rw [hms] at h2
    by_cases hcond : (!(isLetterChar c0 || c0 == 95) || startsXml (c0 :: rest)) = true
    · refine ⟨95 :: c0 :: rest, ?_, by simp, ?_, startsXml_cons95 _, ?_⟩
      · simp only [fixXmlTag, hms, hcond, if_true]
      · simp [tagHeadOk]
      · exact tagCharsOk_cons 95 (by decide) (c0 :: rest) (by simp) h2
    · have hf : (!(isLetterChar c0 || c0 == 95) || startsXml (c0 :: rest)) = false := by
        revert hcond
        cases (!(isLetterChar c0 || c0 == 95) || startsXml (c0 :: rest)) <;> simp
      rcases Bool.or_eq_false_iff.mp hf with ⟨ha, hb⟩
      have ha' : (isLetterChar c0 || c0 == 95) = true := by
        revert ha
        cases (isLetterChar c0 || c0 == 95) <;> simp
      refine ⟨c0 :: rest, ?_, by simp, ?_, hb, h2⟩
      · simp only [fixXmlTag, hms, hf, Bool.false_eq_true, if_false]
      · simp [tagHeadOk, ha']

/-- Any non-empty string that already satisfies the three result predicates is
a fixed point of `fixXmlTag`. -/
theorem fixXmlTag_fixed (t : List Nat) (ht : t ≠ []) (hh : tagHeadOk t = true)
    (hx : startsXml t = false) (hc : tagCharsOk t = true) :
    fixXmlTag (PyVal.str t) = some (PyVal.str t) := by
  have hmatch : matchAllTagChars t = true := by
    simp only [matchAllTagChars, tagCharsOk, Bool.or_eq_true, Bool.and_eq_true] at hc ⊢
    rcases hc with h | ⟨hl, h2⟩
    · exact Or.inl ⟨by simpa using ht, h⟩
    · refine Or.inr ⟨⟨hl, ?_⟩, h2⟩
      cases t with
      | nil => exact absurd rfl ht
      | cons c t' =>
        cases t' with
        | nil =>
          exfalso
          have hc10 : c = 10 := by simpa using hl
          rw [hc10] at hh
          exact absurd hh (by decide)
        | cons d t'' => simp [List.dropLast_cons₂]
  cases t with
  | nil => exact absurd rfl ht
  | cons c0 rest =>
    have hh' : (isLetterChar c0 || c0 == 95) = true := by simpa [tagHeadOk] using hh
    simp [fixXmlTag, hmatch, hh', hx]

/-- C1 (amended): for every non-empty string, `fixXmlTag` returns a non-empty
string that starts with a letter or an underscore and does not begin with
`xml` in any letter case; every character is from the legal tag charset,
except that a single trailing newline survives when the rest of the string is
entirely legal (Python's `$` in the full-match regex also matches just before
one trailing newline). -/
theorem fixXmlTag_result_sanitized (msg : List Nat) (hm : msg ≠ []) :
    ∃ t, fixXmlTag (PyVal.str msg) = some (PyVal.str t) ∧ t ≠ [] ∧
      tagHeadOk t = true ∧ startsXml t = false ∧ tagCharsOk t = true :=
  fixXmlTag_str_spec msg hm

/-- C1 witness: the concrete input `"1b"` (starts with a digit). -/
theorem fixXmlTag_result_sanitized_witness :
    ∃ t, fixXmlTag (PyVal.str [49, 98]) = some (PyVal.str t) ∧ t ≠ [] ∧
      tagHeadOk t = true ∧ startsXml t = false ∧ tagCharsOk t = true :=
  fixXmlTag_result_sanitized [49, 98] (by decide)

/-- C1 counterexample: on `"abc\n"` the full-match regex succeeds (the `$`
matches before the trailing newline), so no substitution happens and the
returned tag still contains the newline, a character outside the legal tag
charset. -/
theorem fixXmlTag_keeps_trailing_newline :
    fixXmlTag (PyVal.str [97, 98, 99, 10]) = some (PyVal.str [97, 98, 99, 10]) ∧
      legalTagChar 10 = false := by decide

/-- C10: `fixXmlTag` is idempotent on non-empty strings, so the double
sanitization of the root name performed by `newTree` (once directly, once
inside `newNode`) produces the same tag as a single application. -/
theorem fixXmlTag_idempotent (s : List Nat) (attrib : List (PyVal × PyVal)) (hs : s ≠ []) :
    (fixXmlTag (PyVal.str s)).bind fixXmlTag = fixXmlTag (PyVal.str s) ∧
    (newTree (PyVal.str s) attrib).map Element.tag = fixXmlTag (PyVal.str s) := by
  obtain ⟨t, heq, ht, hh, hx, hc⟩ := fixXmlTag_str_spec s hs
  have hfix := fixXmlTag_fixed t ht hh hx hc
  constructor
  · rw [heq]
    simp [hfix]
  · simp [newTree, newNode, cleanAttribPairs, heq, hfix, xmlIllegalSub, Element.tag]

/-- C10 witness: the concrete input `"b"` with one attribute pair. -/
theorem fixXmlTag_idempotent_witness :
    ((fixXmlTag (PyVal.str [98])).bind fixXmlTag = fixXmlTag (PyVal.str [98])) ∧
    (newTree (PyVal.str [98]) [(PyVal.str [120], PyVal.str [121])]).map Element.tag =
      fixXmlTag (PyVal.str [98]) :=
  fixXmlTag_idempotent [98] [(PyVal.str [120], PyVal.str [121])] (by decide)

/-- C8 counterexample: on the empty name string `newTree` does not return a
tree at all — the very first statement `name = fixXmlTag(name)` raises an
`IndexError` at `msg[0]` (modelled by `none`), so the claim's "for every name
string" fails at `name = ''`. -/
theorem newTree_empty_name_raises : newTree (PyVal.str []) [] = none := rfl

/-- C8 (amended): for every non-empty name string and attribute mapping,
`newTree(name, attrib)` returns a tree whose root tag is `fixXmlTag(name)`,
whose attribute mapping is the given mapping verbatim (no sanitization of
keys or values), whose text is the sanitized empty default, and which has no
children; on the empty name string `newTree` raises inside `fixXmlTag`. -/
theorem newTree_root_spec (name : List Nat) (attrib : List (PyVal × PyVal)) (hn : name ≠ []) :
    ∃ t, fixXmlTag (PyVal.str name) = some t ∧
      newTree (PyVal.str name) attrib =
        some (Element.mk t attrib (some []) none ElementList.nil) := by
  obtain ⟨t, heq, ht, hh, hx, hc⟩ := fixXmlTag_str_spec name hn
  have hfix := fixXmlTag_fixed t ht hh hx hc
  exact ⟨PyVal.str t, heq,
    by simp [newTree, newNode, cleanAttribPairs, heq, hfix, xmlIllegalSub]⟩

/-- C8 witness: the concrete name `"a"` with an attribute pair that is kept
verbatim. -/
theorem newTree_root_spec_witness :
    ∃ t, fixXmlTag (PyVal.str [97]) = some t ∧
      newTree (PyVal.str [97]) [(PyVal.str [107], PyVal.str [118])] =
        some (Element.mk t [(PyVal.str [107], PyVal.str [118])] (some []) none
          ElementList.nil) :=
  newTree_root_spec [97] [(PyVal.str [107], PyVal.str [118])] (by decide)

/-! ## Composition of `fixXmlText` and `fixXmlTag` (claim C4) -/

theorem inA_legal_false (c : Nat) (h : inA c = true) : legalTagChar c = false := by
  simp only [inA, Bool.or_eq_true, Bool.and_eq_true, decide_eq_true_eq, beq_iff_eq] at h
  rw [Bool.eq_false_iff]
  intro h2
  simp only [legalTagChar, Bool.or_eq_true, Bool.and_eq_true, decide_eq_true_eq,
    beq_iff_eq] at h2
  omega

theorem inA_ten : inA 10 = false := by decide

/-- On surrogate-free strings the `RE_XML_ILLEGAL` substitution degenerates to
a character-wise replacement of the illegal-control class by `?`. -/
theorem xmlIllegalSub_no_surrogates :
    ∀ (s : List Nat), (s.all fun c => !(inH c || inL c)) = true →
      ∀ (b : Bool), xmlIllegalSub s b = s.map (fun c => if inA c then 63 else c)
  | [], _, b => rfl
  | [a], h, b => by
    have ha : inH a = false ∧ inL a = false := by
      rcases Bool.or_eq_false_iff.mp (by simpa using h) with ⟨h1, h2⟩
      exact ⟨h1, h2⟩
    by_cases hA : inA a = true
    · simp [xmlIllegalSub, hA]
    · simp [xmlIllegalSub, hA, ha.1, ha.2]
  | a :: b' :: rest, h, b => by
    rw [List.all_cons, Bool.and_eq_true] at h
    obtain ⟨ha0, hrest⟩ := h
    have ha : inH a = false ∧ inL a = false := by
      rcases Bool.or_eq_false_iff.mp (by simpa using ha0) with ⟨h1, h2⟩
      exact ⟨h1, h2⟩
    have hb2 : inL b' = false := by
      have hmem := List.all_eq_true.mp hrest b' (by simp)
      rcases Bool.or_eq_false_iff.mp (by simpa using hmem) with ⟨_, h2⟩
      exact h2
    have ih := xmlIllegalSub_no_surrogates (b' :: rest) hrest false
    by_cases hA : inA a = true
    · simp [xmlIllegalSub, hA, ih]
    · simp [xmlIllegalSub, hA, ha.1, ha.2, hb2, ih]

theorem pointwise_legal_inA_map (c : Nat) :
    legalTagChar (if inA c then 63 else c) = legalTagChar c := by
  by_cases h : inA c = true
  · rw [if_pos h, inA_legal_false c h]
    decide
  · rw [if_neg h]

theorem pointwise_ten_inA_map (c : Nat) :
    ((if inA c then 63 else c) == 10) = (c == 10) := by
  by_cases h : inA c = true
  · rw [if_pos h]
    have : c ≠ 10 := by
      intro he
      rw [he] at h
      exact absurd h (by decide)
    simp [this]
  · rw [if_neg h]

/-- The character-wise text replacement does not change whether the legal-tag
full-match regex succeeds. -/
theorem matchAllTagChars_map_inA (s : List Nat) :
    matchAllTagChars (s.map fun c => if inA c then 63 else c) = matchAllTagChars s := by
  have hall : ∀ (l : List Nat),
      ((l.map fun c => if inA c then 63 else c).all legalTagChar) = l.all legalTagChar := by
    intro l
    induction l with
    | nil => rfl
    | cons x xs ih => simp only [List.map_cons, List.all_cons, ih, pointwise_legal_inA_map x]
  have hempty : ∀ (l : List Nat),
      (l.map fun c => if inA c then 63 else c).isEmpty = l.isEmpty := by
    intro l
    cases l <;> rfl
  have hlast : ((s.map fun c => if inA c then 63 else c).getLast? == some 10) =
      (s.getLast? == some 10) := by
    rw [List.getLast?_map]
    cases s.getLast? with
    | none => rfl
    | some a => exact pointwise_ten_inA_map a
  simp only [matchAllTagChars, ← List.map_dropLast, hall, hempty, hlast]

theorem map_inA_eq_self (s : List Nat) (h : ∀ c ∈ s, inA c = false) :
    s.map (fun c => if inA c then 63 else c) = s := by
  induction s with
  | nil => rfl
  | cons a t ih =>
    have h1 : inA a = false := h a (List.mem_cons_self a t)
    simp [h1, ih (fun c hc => h c (List.mem_cons_of_mem a hc))]

/-- A string accepted by the legal-tag full match contains no character of the
illegal-control class (its characters are legal, except a trailing newline,
and the newline is not in the class either). -/
theorem matchAll_no_inA (s : List Nat) (hm : matchAllTagChars s = true) :
    ∀ c ∈ s, inA c = false := by
  intro c hc
  have hlegal : ∀ d : Nat, legalTagChar d = true → inA d = false := by
    intro d hd
    by_contra hA
    have hA' : inA d = true := by
      revert hA
      cases inA d <;> simp
    rw [inA_legal_false d hA'] at hd
    exact absurd hd (by decide)
  simp only [matchAllTagChars, Bool.or_eq_true, Bool.and_eq_true] at hm
  rcases hm with ⟨_, hall⟩ | ⟨⟨hl, _⟩, hall⟩
  · exact hlegal c (List.all_eq_true.mp hall c hc)
  · have hne : s ≠ [] := by
      intro he
      subst he
      simp at hc
    have hsp := List.dropLast_append_getLast hne
    rcases List.mem_append.mp (by rw [hsp]; exact hc) with hcd | hcl
    · exact hlegal c (List.all_eq_true.mp hall c hcd)
    · have hg : s.getLast? = some (s.getLast hne) := List.getLast?_eq_getLast s hne
      have h10 : s.getLast hne = 10 := by
        rw [hg] at hl
        simpa using hl.symm
      have hc10 : c = 10 := by
        rw [← h10]
        simpa using hcl
      rw [hc10]
      decide

theorem fixXmlTag_of_not_match (s : List Nat) (hm : matchAllTagChars s = false) :
    fixXmlTag (PyVal.str s) =
      (match s.map (fun c => if legalTagChar c then c else 46) with
      | [] => none
      | c0 :: rest =>
        if !(isLetterChar c0 || c0 == 95) || startsXml (c0 :: rest) then
          some (PyVal.str (95 :: c0 :: rest))
        else some (PyVal.str (c0 :: rest))) := by
  simp only [fixXmlTag, hm, Bool.not_false, if_true]

/-- C4 (amended): on every string without surrogate-range code units — and on
every non-string value — applying the tag rules after `fixXmlText` gives the
same result as `fixXmlTag` alone (the code of `fixXmlTag` consists exactly of
the tag-specific rules, so the composition is `fixXmlTag` after
`fixXmlText`).  On strings with surrogates the two sides differ, because
`fixXmlText` collapses a two-character match to a single `?`. -/
theorem fixXmlTag_after_fixXmlText (s : List Nat)
    (h : (s.all fun c => !(inH c || inL c)) = true) :
    fixXmlTag (fixXmlText (PyVal.str s)) = fixXmlTag (PyVal.str s) := by
  have hsub := xmlIllegalSub_no_surrogates s h true
  simp only [fixXmlText]
  rw [hsub]
  by_cases hm : matchAllTagChars s = true
  · rw [map_inA_eq_self s (matchAll_no_inA s hm)]
  · have hmf : matchAllTagChars s = false := Bool.eq_false_iff.mpr hm
    have hmf2 : matchAllTagChars (s.map fun c => if inA c then 63 else c) = false := by
      rw [matchAllTagChars_map_inA]
      exact hmf
    rw [fixXmlTag_of_not_match _ hmf2, fixXmlTag_of_not_match _ hmf]
    have hmaps : (s.map fun c => if inA c then 63 else c).map
        (fun c => if legalTagChar c then c else 46) =
        s.map (fun c => if legalTagChar c then c else 46) := by
      rw [List.map_map]
      apply List.map_congr_left
      intro a ha
      by_cases hA : inA a = true
      · have hleg : legalTagChar a = false := inA_legal_false a hA
        have h63 : legalTagChar 63 = false := by decide
        simp [Function.comp, hA, hleg, h63]
      · simp [Function.comp, hA]
    rw [hmaps]

/-- C4 counterexample: on `"\ud800b"` (a high surrogate followed by `b`),
`fixXmlText` replaces the two-character match by one `?`, so the composition
yields `"_."` while `fixXmlTag` alone yields `"_.b"`. -/
theorem fixXmlTag_after_fixXmlText_differs :
    fixXmlTag (fixXmlText (PyVal.str [55296, 98])) ≠ fixXmlTag (PyVal.str [55296, 98]) := by
  decide

/-- C4 witness: the surrogate-free string `"\x01a"`. -/
theorem fixXmlTag_after_fixXmlText_witness :
    fixXmlTag (fixXmlText (PyVal.str [1, 97])) = fixXmlTag (PyVal.str [1, 97]) :=
  fixXmlTag_after_fixXmlText [1, 97] (by decide)

/-! ## Path resolution (claim C2) -/

/-- No piece produced by splitting on the separator contains the separator. -/
theorem splitOn_pieces_not_mem (x : Nat) (xs : List Nat) :
    ∀ l ∈ xs.splitOn x, x ∉ l := by
  suffices h : ∀ l ∈ xs.splitOnP (· == x), ∀ a ∈ l, ¬((a == x) = true) by
    intro l hl hx
    exact h l hl x hx (by simp)
  induction xs with
  | nil =>
    intro l hl a ha
    simp only [List.splitOnP_nil, List.mem_singleton] at hl
    subst hl
    simp at ha
  | cons hd tl ih =>
    intro l hl a ha
    rw [List.splitOnP_cons] at hl
    by_cases hh : (hd == x) = true
    · rw [if_pos hh] at hl
      rcases List.mem_cons.mp hl with rfl | hl2
      · simp at ha
      · exact ih l hl2 a ha
    · rw [if_neg hh] at hl
      rcases hsp : tl.splitOnP (· == x) with _ | ⟨h0, rest⟩
      · exact absurd hsp (List.splitOnP_ne_nil _ tl)
      · rw [hsp, List.modifyHead] at hl
        rcases List.mem_cons.mp hl with rfl | hl2
        · rcases List.mem_cons.mp ha with rfl | ha2
          · exact hh
          · exact ih h0 (by rw [hsp]; exact List.mem_cons_self h0 rest) a ha2
        · exact ih l (by rw [hsp]; exact List.mem_cons_of_mem h0 hl2) a ha

theorem resolveSegs_concat :
    ∀ (l : List (List Nat)) (root : Element) (a : List Nat),
      resolveSegs root (l ++ [a]) =
        match resolveSegs root l with
        | some u => findChild u a
        | none => none
  | [], root, a => by
    simp only [List.nil_append, resolveSegs]
    cases findChild root a <;> rfl
  | seg :: rest, root, a => by
    simp only [List.cons_append, resolveSegs]
    cases findChild root seg with
    | some child => exact resolveSegs_concat rest child a
    | none => rfl

theorem findPath_resolveSegs_aux :
    ∀ (n : Nat) (root : Element) (path : List Nat), path.length < n →
      findPath root path = resolveSegs root (path.splitOn 124) := by
  intro n
  induction n with
  | zero =>
    intro root path h
    omega
  | succ n ih =>
    intro root path hlen
    rw [findPath]
    split
    next h =>
      have hrec : findPath root (joinPipe ((path.splitOn 124).dropLast)) =
          resolveSegs root ((joinPipe ((path.splitOn 124).dropLast)).splitOn 124) := by
        apply ih
        have := joinPipe_dropLast_length_lt path h
        omega
      have hne : path.splitOn 124 ≠ [] := by
        intro he
        rw [he] at h
        simp at h
      have hdl : (path.splitOn 124).dropLast ≠ [] := by
        intro he
        have hl2 := (path.splitOn 124).length_dropLast
        rw [he] at hl2
        simp at hl2
        omega
      have hround : (joinPipe ((path.splitOn 124).dropLast)).splitOn 124 =
          (path.splitOn 124).dropLast :=
        List.splitOn_intercalate ((path.splitOn 124).dropLast) 124
          (fun l hl => splitOn_pieces_not_mem 124 path l (List.dropLast_subset _ hl)) hdl
      rw [hrec, hround]
      have hgl : (path.splitOn 124).getLast! = (path.splitOn 124).getLast hne :=
        List.getLast!_of_getLast? (List.getLast?_eq_getLast _ hne)
      have hsp := List.dropLast_append_getLast hne
      conv_rhs => rw [← hsp]
      rw [resolveSegs_concat, hgl]
    next h =>
      have hne : path.splitOn 124 ≠ [] := List.splitOnP_ne_nil _ path
      have hpos : 0 < (path.splitOn 124).length := List.length_pos.mpr hne
      have hlen1 : (path.splitOn 124).length = 1 := by omega
      obtain ⟨a, ha⟩ := List.length_eq_one.mp hlen1
      rw [ha]
      show findChild root [a].getLast! = resolveSegs root [a]
      have hgl : [a].getLast! = a := rfl
      rw [hgl]
      simp only [resolveSegs]
      cases findChild root a with
      | some child => rfl
      | none => rfl

/-- C2: `findPath` resolves the pipe-separated segments left to right, each as
the first direct child (with that tag) of the node matched for the previous
segment, returning the element reached when the whole path is present and the
`None` sentinel as soon as any segment has no match; the model is total, so no
exception is raised. -/
theorem findPath_resolves_segments (root : Element) (path : List Nat) :
    findPath root path = resolveSegs root (path.splitOn 124) :=
  findPath_resolveSegs_aux (path.length + 1) root path (by omega)

/-! ## Frame property of `prettifyNode` (claim C7) -/

theorem shape_mapTail (f : List Nat → List Nat) (e : Element) :
    shape (Element.mapTail f e) = shape e := by
  cases e with
  | mk tag attrib text tail children => rfl

theorem shapeList_mapLast (f : Element → Element) (hf : ∀ e, shape (f e) = shape e) :
    ∀ (l : ElementList), shapeList (ElementList.mapLast f l) = shapeList l
  | .nil => rfl
  | .cons c .nil => by
    show ElementList.cons (shape (f c)) (shapeList .nil) = ElementList.cons (shape c) (shapeList .nil)
    rw [hf c]
  | .cons c (.cons d cs) => by
    show ElementList.cons (shape c) (shapeList (ElementList.mapLast f (.cons d cs))) =
      ElementList.cons (shape c) (shapeList (.cons d cs))
    rw [shapeList_mapLast f hf (.cons d cs)]

mutual
theorem shape_prettifyNode : ∀ (n : Element) (t : Nat), shape (prettifyNode n t) = shape n
  | .mk tag attrib text tail .nil, t => by
    simp only [prettifyNode.eq_def]
    simp [shape, ElementList.isNil, shapeList]
  | .mk tag attrib text tail (.cons c cs), t => by
    simp only [prettifyNode.eq_def]
    simp only [ElementList.isNil, Bool.not_false, if_true, shape]
    have hmt : ∀ e : Element, shape (Element.mapTail (fun t2 => t2.take (t2.length - 2)) e) =
        shape e := fun e => shape_mapTail _ e
    have hmr : ∀ e : Element, shape (Element.mapTail replace2ls e) = shape e :=
      fun e => shape_mapTail _ e
    have h1 : shapeList ((prettifyChildren (.cons c cs) (t + 1)).mapLast
        (Element.mapTail (fun t2 => t2.take (t2.length - 2)))) = shapeList (.cons c cs) := by
      rw [shapeList_mapLast _ hmt, shapeList_prettifyChildren (.cons c cs) (t + 1)]
    split
    · rw [shapeList_mapLast _ hmr, h1]
    · rw [h1]

theorem shapeList_prettifyChildren :
    ∀ (l : ElementList) (t : Nat), shapeList (prettifyChildren l t) = shapeList l
  | .nil, _ => rfl
  | .cons c cs, t => by
    show ElementList.cons (shape (prettifyNode c t)) (shapeList (prettifyChildren cs t)) =
      ElementList.cons (shape c) (shapeList cs)
    rw [shape_prettifyNode c t, shapeList_prettifyChildren cs t]
end

/-- C7: `prettifyNode` modifies only the `text` and `tail` fields: the shape
of the tree — every node's tag, attribute mapping and ordered children
structure — is unchanged, and `prettify` returns the serialization of the
reformatted tree. -/
theorem prettifyNode_frame (n : Element) (t : Nat) :
    shape (prettifyNode n t) = shape n ∧ prettify n = serialize (prettifyNode n 0) :=
  ⟨shape_prettifyNode n t, rfl⟩

/-! ## First-level formatting of `prettify` (claim C6) -/

theorem mapTail_tail (f : List Nat → List Nat) (e : Element) :
    (Element.mapTail f e).tail = some (f (e.tail.getD [])) := by
  cases e with
  | mk tag attrib text tail children => rfl

/-- The tail written by `prettifyNode`: stripped old tail, then one newline —
two at the first level for non-comment nodes — then this level's
indentation. -/
theorem prettifyNode_tail :
    ∀ (c : Element) (t : Nat),
      (prettifyNode c t).tail = some (pystrip (c.tail.getD []) ++
        (if t == 1 && !isComment c then linesep ++ linesep else linesep) ++
        List.replicate (2 * t) 32)
  | .mk tag attrib text none children, t => rfl
  | .mk tag attrib text (some x) children, t => rfl

/-- Specialization to the first level, phrased with `firstLevelSep`. -/
theorem prettifyNode_tail_level1 (c : Element) :
    (prettifyNode c 1).tail =
      some (pystrip (c.tail.getD []) ++ firstLevelSep c ++ [32, 32]) := by
  rw [prettifyNode_tail c 1]
  cases hcm : isComment c <;> simp [firstLevelSep, hcm]

theorem prettifyChildren_toList :
    ∀ (l : ElementList) (t : Nat),
      (prettifyChildren l t).toList = l.toList.map (fun c => prettifyNode c t)
  | .nil, _ => rfl
  | .cons c cs, t => by
    show prettifyNode c t :: (prettifyChildren cs t).toList =
      prettifyNode c t :: cs.toList.map (fun c => prettifyNode c t)
    rw [prettifyChildren_toList cs t]

theorem mapLast_toList_ne_nil (f : Element → Element) (c : Element) (cs : ElementList) :
    (ElementList.mapLast f (.cons c cs)).toList ≠ [] := by
  cases cs <;> simp [ElementList.mapLast, ElementList.toList]

theorem mapLast_toList_dropLast (f : Element → Element) :
    ∀ (l : ElementList), (l.mapLast f).toList.dropLast = l.toList.dropLast
  | .nil => rfl
  | .cons c .nil => rfl
  | .cons c (.cons d cs) => by
    have ih := mapLast_toList_dropLast f (.cons d cs)
    show (c :: (ElementList.mapLast f (.cons d cs)).toList).dropLast =
      (c :: d :: cs.toList).dropLast
    rw [List.dropLast_cons_of_ne_nil (mapLast_toList_ne_nil f d cs), ih, List.dropLast_cons₂]
    rfl

theorem mapLast_toList_getLast? (f : Element → Element) :
    ∀ (l : ElementList), (l.mapLast f).toList.getLast? = l.toList.getLast?.map f
  | .nil => rfl
  | .cons c .nil => rfl
  | .cons c (.cons d cs) => by
    have ih := mapLast_toList_getLast? f (.cons d cs)
    show (c :: (ElementList.mapLast f (.cons d cs)).toList).getLast? =
      ((c :: d :: cs.toList).getLast?).map f
    cases hx : (ElementList.mapLast f (.cons d cs)).toList with
    | nil => exact absurd hx (mapLast_toList_ne_nil f d cs)
    | cons y ys =>
      rw [List.getLast?_cons_cons, ← hx, ih]
      rfl

theorem take_drop_two (x : List Nat) (a b : Nat) :
    (x ++ [a, b]).take ((x ++ [a, b]).length - 2) = x := by
  have h : (x ++ [a, b]).length - 2 = x.length := by simp
  rw [h]
  exact List.take_left x [a, b]

theorem prettifyNode_children_root (tag : PyVal) (attrib : List (PyVal × PyVal))
    (text tail : Option (List Nat)) (c : Element) (cs : ElementList) :
    (prettifyNode (.mk tag attrib text tail (.cons c cs)) 0).children =
      ((prettifyChildren (.cons c cs) 1).mapLast
        (Element.mapTail (fun t2 => t2.take (t2.length - 2)))).mapLast
        (Element.mapTail replace2ls) := rfl

theorem prettifyNode_text_root (tag : PyVal) (attrib : List (PyVal × PyVal))
    (text tail : Option (List Nat)) (c : Element) (cs : ElementList) :
    (prettifyNode (.mk tag attrib text tail (.cons c cs)) 0).text =
      some (pystrip (text.getD []) ++ linesep ++ [32, 32]) := by
  show some (pystrip (text.getD []) ++ linesep ++ List.replicate (2 * 0) 32 ++ [32, 32]) =
    some (pystrip (text.getD []) ++ linesep ++ [32, 32])
  simp

theorem indentOK_mapTail (f : List Nat → List Nat) (e : Element) (d : Nat) :
    indentOK (Element.mapTail f e) d = indentOK e d := by
  cases e with
  | mk tag attrib text tail children => rfl

theorem indentOKList_mapLast (f : Element → Element)
    (hf : ∀ (e : Element) (d : Nat), indentOK (f e) d = indentOK e d) :
    ∀ (l : ElementList) (d : Nat), indentOKList (l.mapLast f) d = indentOKList l d
  | .nil, d => rfl
  | .cons c .nil, d => by
    show (indentOK (f c) d && indentOKList .nil d) = (indentOK c d && indentOKList .nil d)
    rw [hf c d]
  | .cons c (.cons e es), d => by
    show (indentOK c d && indentOKList (ElementList.mapLast f (.cons e es)) d) =
      (indentOK c d && indentOKList (.cons e es) d)
    rw [indentOKList_mapLast f hf (.cons e es) d]

mutual
theorem indentOK_prettifyNode : ∀ (n : Element) (d : Nat), indentOK (prettifyNode n d) d = true
  | .mk tag attrib text tail .nil, d => by
    simp only [prettifyNode.eq_def]
    simp [indentOK, indentOKList, ElementList.isNil]
  | .mk tag attrib text tail (.cons c cs), d => by
    simp only [prettifyNode.eq_def]
    simp only [ElementList.isNil, Bool.not_false, if_true, indentOK]
    have hrep : List.replicate (2 * d) 32 ++ [32, 32] = List.replicate (2 * (d + 1)) 32 := by
      have h2 : 2 * (d + 1) = 2 * d + 2 := by ring
      rw [h2, List.replicate_add]
      rfl
    have hbase : indentOKList ((prettifyChildren (.cons c cs) (d + 1)).mapLast
        (Element.mapTail (fun t2 => t2.take (t2.length - 2)))) (d + 1) = true := by
      rw [indentOKList_mapLast _ (fun e d2 => indentOK_mapTail _ e d2),
        indentOKList_prettifyChildren (.cons c cs) (d + 1)]
    have hch2 : indentOKList (if (d == 0 && !ElementList.isNil (.cons c cs)) = true then
        ((prettifyChildren (.cons c cs) (d + 1)).mapLast
          (Element.mapTail (fun t2 => t2.take (t2.length - 2)))).mapLast
          (Element.mapTail replace2ls)
        else (prettifyChildren (.cons c cs) (d + 1)).mapLast
          (Element.mapTail (fun t2 => t2.take (t2.length - 2)))) (d + 1) = true := by
      split
      · rw [indentOKList_mapLast _ (fun e d2 => indentOK_mapTail _ e d2), hbase]
      · exact hbase
    have hsfx : (linesep ++ List.replicate (2 * (d + 1)) 32).isSuffixOf
        (pystrip (text.getD []) ++ linesep ++ List.replicate (2 * d) 32 ++ [32, 32]) = true := by
      simp only [List.isSuffixOf_iff_suffix]
      refine ⟨pystrip (text.getD []), ?_⟩
      rw [← hrep]
      simp [List.append_assoc]
    rw [Bool.and_eq_true]
    exact ⟨Bool.or_eq_true_iff.mpr (Or.inr hsfx), hch2⟩

theorem indentOKList_prettifyChildren :
    ∀ (l : ElementList) (d : Nat), indentOKList (prettifyChildren l d) d = true
  | .nil, _ => rfl
  | .cons c cs, d => by
    show (indentOK (prettifyNode c d) d && indentOKList (prettifyChildren cs d) d) = true
    rw [indentOK_prettifyNode c d, indentOKList_prettifyChildren cs d]
    rfl
end

/-- C6 (amended): after `prettifyNode root 0`, (1) every first-level child
except the last is exactly the level-1 reformat of the old child; (2) the last
first-level child's tail is the stripped old tail plus the first-level
separator, with its two trailing indent spaces removed and doubled newlines
collapsed; (3) a level-1 reformat gives every node a tail of stripped old tail
plus a blank line — a single newline for comment nodes — plus two spaces of
indentation, so a blank line follows every non-last first-level node except
comments; (4) the root text is stripped and indented two spaces; and (5) every
node with children at depth `d` has text ending in a newline plus `2*(d+1)`
spaces — two-space-per-level indentation. -/
theorem prettify_first_level_layout (root cArb : Element)
    (hch : root.children ≠ ElementList.nil) :
    (prettifyNode root 0).children.toList.dropLast =
      root.children.toList.dropLast.map (fun c => prettifyNode c 1) ∧
    ((prettifyNode root 0).children.toList.getLast?).map Element.tail =
      (root.children.toList.getLast?).map (fun c =>
        some (replace2ls (pystrip (c.tail.getD []) ++ firstLevelSep c))) ∧
    (prettifyNode cArb 1).tail =
      some (pystrip (cArb.tail.getD []) ++ firstLevelSep cArb ++ [32, 32]) ∧
    (prettifyNode root 0).text =
      some (pystrip (root.text.getD []) ++ linesep ++ [32, 32]) ∧
    indentOK (prettifyNode root 0) 0 = true := by
  cases root with
  | mk tag attrib text tail children =>
    cases children with
    | nil => exact absurd rfl hch
    | cons c cs =>
      have hcc : (Element.mk tag attrib text tail (ElementList.cons c cs)).children =
          ElementList.cons c cs := rfl
      refine ⟨?_, ?_, prettifyNode_tail_level1 cArb,
        prettifyNode_text_root tag attrib text tail c cs,
        indentOK_prettifyNode (.mk tag attrib text tail (.cons c cs)) 0⟩
      · rw [hcc, prettifyNode_children_root, mapLast_toList_dropLast, mapLast_toList_dropLast,
          prettifyChildren_toList, List.map_dropLast]
      · rw [hcc, prettifyNode_children_root, mapLast_toList_getLast?, mapLast_toList_getLast?,
          prettifyChildren_toList, List.getLast?_map]
        cases hg : (ElementList.cons c cs).toList.getLast? with
        | none => rfl
        | some cl =>
          simp only [Option.map_some']
          refine congrArg some ?_
          rw [mapTail_tail]
          have h1 := mapTail_tail (fun t2 => t2.take (t2.length - 2)) (prettifyNode cl 1)
          rw [h1]
          simp only [Option.getD_some]
          rw [prettifyNode_tail_level1 cl]
          simp only [Option.getD_some]
          rw [take_drop_two]

/-- C6 witness: the concrete root with an ordinary child followed by a
comment child. -/
theorem prettify_first_level_layout_witness :
    (prettifyNode exRoot 0).children.toList.dropLast =
      exRoot.children.toList.dropLast.map (fun c => prettifyNode c 1) ∧
    ((prettifyNode exRoot 0).children.toList.getLast?).map Element.tail =
      (exRoot.children.toList.getLast?).map (fun c =>
        some (replace2ls (pystrip (c.tail.getD []) ++ firstLevelSep c))) ∧
    (prettifyNode exNodeA 1).tail =
      some (pystrip (exNodeA.tail.getD []) ++ firstLevelSep exNodeA ++ [32, 32]) ∧
    (prettifyNode exRoot 0).text =
      some (pystrip (exRoot.text.getD []) ++ linesep ++ [32, 32]) ∧
    indentOK (prettifyNode exRoot 0) 0 = true :=
  prettify_first_level_layout exRoot exNodeA (by decide)

/-- C6 counterexample: in the prettified tree with an ordinary first-level
node directly followed by a comment, the ordinary node's new tail contains a
blank line — a blank line appears immediately before a comment node, while
the claim says blank lines separate first-level siblings except before
comment nodes (the code's exception is "after a comment", not "before"). -/
theorem prettify_blank_line_before_comment :
    claimC6blankSep (prettifyNode exRoot 0) = false ∧
    blankAfterTail ((prettifyNode exRoot 0).children.toList)[0]! = true ∧
    isComment ((prettifyNode exRoot 0).children.toList)[1]! = true := by decide
